import Mathlib

/-!
Verification of the core capture-and-pacing pipeline of `xcapture.go`.

The Go program is shallowly embedded: pages and pixel data are `List Nat`
(one `Nat` per byte, values `< 256` for real page contents), Go's machine
integers are modelled as `Nat`/`Int` with explicit `% 2 ^ 32` where the
source computes in `uint32`, Go's built-in `copy` into a slice suffix is
`copyAt`, and the concurrent capture-loop / pacer pair is modelled as a
deterministic state-transition system (pacer) and a validity predicate on
event traces (producer).
-/

namespace XCapture

/-! ## Byte-list helpers

`List.getD l k 0` plays the role of reading byte `k` of a Go byte slice.
The lemmas below are the indexing facts used throughout. -/

theorem getD_eq_default (l : List Nat) (k : Nat) (h : l.length ≤ k) :
    l.getD k 0 = 0 := by
  simp [List.getD_eq_getElem?_getD, List.getElem?_eq_none h]

theorem getD_append_left (l₁ l₂ : List Nat) (k : Nat) (h : k < l₁.length) :
    (l₁ ++ l₂).getD k 0 = l₁.getD k 0 := by
  simp [List.getD_eq_getElem?_getD, List.getElem?_append, h]

theorem getD_append_right (l₁ l₂ : List Nat) (k : Nat) (h : l₁.length ≤ k) :
    (l₁ ++ l₂).getD k 0 = l₂.getD (k - l₁.length) 0 := by
  simp [List.getD_eq_getElem?_getD, List.getElem?_append, Nat.not_lt.mpr h]

theorem getD_take (l : List Nat) (n k : Nat) (h : k < n) :
    (l.take n).getD k 0 = l.getD k 0 := by
  simp [List.getD_eq_getElem?_getD, List.getElem?_take, h]

theorem getD_drop (l : List Nat) (n k : Nat) :
    (l.drop n).getD k 0 = l.getD (n + k) 0 := by
  simp [List.getD_eq_getElem?_getD, List.getElem?_drop]

theorem getD_replicate (n a k : Nat) :
    (List.replicate n a).getD k 0 = if k < n then a else 0 := by
  by_cases h : k < n
  · simp [List.getD_eq_getElem?_getD, List.getElem?_replicate, h]
  · simp [List.getD_eq_getElem?_getD, List.getElem?_replicate, h]

theorem getD_set_ne (l : List Nat) (i a k : Nat) (h : i ≠ k) :
    (l.set i a).getD k 0 = l.getD k 0 := by
  simp [List.getD_eq_getElem?_getD, List.getElem?_set_ne h]

theorem getD_set_self (l : List Nat) (i a : Nat) (h : i < l.length) :
    (l.set i a).getD i 0 = a := by
  simp [List.getD_eq_getElem?_getD, List.getElem?_set_self, h]

/-! ## Go `copy` into a slice suffix

`copyAt dst off src` models the Go statement `copy(dst[off:], src)`:
bytes `src[j]` land at `dst[off+j]` for `j < min (src.length)
(dst.length - off)`, the rest of `dst` is unchanged, and the length of
`dst` is preserved (for `off ≤ dst.length`, the only case the program
exercises). -/

def copyAt (dst : List Nat) (off : Nat) (src : List Nat) : List Nat :=
  dst.take off ++ src.take (dst.length - off) ++ dst.drop (off + src.length)

theorem copyAt_length (dst : List Nat) (off : Nat) (src : List Nat)
    (h : off ≤ dst.length) : (copyAt dst off src).length = dst.length := by
  simp only [copyAt, List.length_append, List.length_take, List.length_drop]
  omega

theorem copyAt_getD (dst : List Nat) (off : Nat) (src : List Nat)
    (h : off + src.length ≤ dst.length) (k : Nat) :
    (copyAt dst off src).getD k 0 =
      if off ≤ k ∧ k < off + src.length then src.getD (k - off) 0
      else dst.getD k 0 := by
  have hofflen : (dst.take off).length = off := by
    simp [List.length_take]; omega
  have hsrclen : (src.take (dst.length - off)).length = src.length := by
    simp [List.length_take]; omega
  by_cases h1 : k < off
  · rw [if_neg (by omega)]
    rw [copyAt, List.append_assoc, getD_append_left _ _ _ (by omega),
      getD_take _ _ _ h1]
  · by_cases h2 : k < off + src.length
    · rw [if_pos ⟨by omega, h2⟩]
      rw [copyAt, List.append_assoc, getD_append_right _ _ _ (by omega),
        hofflen, getD_append_left _ _ _ (by rw [hsrclen]; omega),
        getD_take _ _ _ (by omega)]
    · rw [if_neg (by omega)]
      rw [copyAt, List.append_assoc, getD_append_right _ _ _ (by omega),
        hofflen, getD_append_right _ _ _ (by rw [hsrclen]; omega),
        hsrclen, getD_drop]
      congr 1
      omega

/-! ## Frame store (`Buffer`) and fetch clamping

Embeds the `Buffer` type of `xcapture.go` (the raw shared-memory pointer
is dropped; page contents are carried separately as byte lists) and the
per-axis clamping `w := width; if int(w) > buf.Width { w = buf.Width }`
performed by the capture loop before each fetch. -/

def bytesPerPixel : Nat := 4

structure Buffer where
  Width : Nat
  Height : Nat
  Pages : Nat
deriving DecidableEq

def Buffer.PageSize (b : Buffer) : Nat :=
  b.Width * b.Height * bytesPerPixel

def Buffer.PageOffset (b : Buffer) (idx : Nat) : Nat :=
  b.PageSize * idx

def clampDim (dim cap : Nat) : Nat :=
  if dim > cap then cap else dim

/-! ## Resize-down reconciliation

Embeds the block guarded by `if int(w) < buf.Width || int(h) < buf.Height`
in the capture loop: copy the page into `scratch`, zero the page, then for
each fetched row `i` copy `scratch[i*w*4 : (i+1)*w*4]` to offset
`i*W*4` of the page (`W` = `buf.Width`, `w` = clamped fetch width). -/

def reconcile (W w h : Nat) (page : List Nat) : List Nat :=
  let scratch := page
  let zeroed := List.replicate page.length 0
  (List.range h).foldl
    (fun pg i =>
      copyAt pg (i * (W * bytesPerPixel))
        ((scratch.drop (i * (w * bytesPerPixel))).take (w * bytesPerPixel)))
    zeroed

theorem reconcile_fold_length (W w H : Nat) (scratch : List Nat)
    (hw : w ≤ W) (hs : scratch.length = W * H * bytesPerPixel) :
    ∀ h, h ≤ H →
      ((List.range h).foldl
        (fun pg i =>
          copyAt pg (i * (W * bytesPerPixel))
            ((scratch.drop (i * (w * bytesPerPixel))).take (w * bytesPerPixel)))
        (List.replicate scratch.length 0)).length = W * H * bytesPerPixel := by
  intro h
  induction h with
  | zero => intro _; simp [hs]
  | succ n ih =>
    intro hn
    rw [List.range_succ, List.foldl_append, List.foldl_cons, List.foldl_nil]
    rw [copyAt_length _ _ _ ?_, ih (by omega)]
    rw [ih (by omega)]
    calc n * (W * bytesPerPixel) ≤ (H - 1) * (W * bytesPerPixel) :=
          Nat.mul_le_mul_right _ (by omega)
      _ ≤ W * H * bytesPerPixel - W * bytesPerPixel := by
          cases H with
          | zero => omega
          | succ m => simp [Nat.succ_sub_one]; ring_nf; omega
      _ ≤ W * H * bytesPerPixel := Nat.sub_le _ _

theorem reconcile_fold_getD (W w H : Nat) (scratch : List Nat)
    (hW : 0 < W) (hw : w ≤ W) (hs : scratch.length = W * H * bytesPerPixel) :
    ∀ h, h ≤ H → ∀ k, k < W * H * bytesPerPixel →
      ((List.range h).foldl
        (fun pg i =>
          copyAt pg (i * (W * bytesPerPixel))
            ((scratch.drop (i * (w * bytesPerPixel))).take (w * bytesPerPixel)))
        (List.replicate scratch.length 0)).getD k 0 =
      if k / (W * bytesPerPixel) < h ∧
          k % (W * bytesPerPixel) < w * bytesPerPixel then
        scratch.getD
          ((k / (W * bytesPerPixel)) * (w * bytesPerPixel) +
            k % (W * bytesPerPixel)) 0
      else 0 := by
  have hB : 0 < W * bytesPerPixel :=
    Nat.mul_pos hW (by norm_num [bytesPerPixel])
  intro h
  induction h with
  | zero =>
    intro _ k hk
    rw [List.range_zero, List.foldl_nil, getD_replicate]
    simp [hs, hk]
  | succ n ih =>
    intro hn k hk
    have hlen := reconcile_fold_length W w H scratch hw hs n (by omega)
    have hrowW : n * (W * bytesPerPixel) + w * bytesPerPixel ≤
        W * H * bytesPerPixel := by
      calc n * (W * bytesPerPixel) + w * bytesPerPixel
          ≤ n * (W * bytesPerPixel) + W * bytesPerPixel := by
            have := Nat.mul_le_mul_right bytesPerPixel hw
            omega
        _ = (n + 1) * (W * bytesPerPixel) := by ring
        _ ≤ H * (W * bytesPerPixel) := Nat.mul_le_mul_right _ (by omega)
        _ = W * H * bytesPerPixel := by ring
    have hroww : n * (w * bytesPerPixel) + w * bytesPerPixel ≤
        W * H * bytesPerPixel := by
      calc n * (w * bytesPerPixel) + w * bytesPerPixel
          = (n + 1) * (w * bytesPerPixel) := by ring
        _ ≤ H * (W * bytesPerPixel) := by
            exact Nat.mul_le_mul (by omega) (Nat.mul_le_mul_right _ hw)
        _ = W * H * bytesPerPixel := by ring
    have hsrclen :
        ((scratch.drop (n * (w * bytesPerPixel))).take
          (w * bytesPerPixel)).length = w * bytesPerPixel := by
      simp only [List.length_take, List.length_drop, hs]
      omega
    rw [List.range_succ, List.foldl_append, List.foldl_cons, List.foldl_nil]
    rw [copyAt_getD _ _ _ (by rw [hlen, hsrclen]; omega) k]
    rw [hsrclen]
    by_cases h1 : n * (W * bytesPerPixel) ≤ k ∧
        k < n * (W * bytesPerPixel) + w * bytesPerPixel
    · rw [if_pos h1]
      set c := k - n * (W * bytesPerPixel) with hc
      have hck : k = n * (W * bytesPerPixel) + c := by omega
      have hcw : c < w * bytesPerPixel := by omega
      have hcW : c < W * bytesPerPixel := by
        have := Nat.mul_le_mul_right bytesPerPixel hw
        omega
      have hdiv : k / (W * bytesPerPixel) = n := by
        rw [hck, show n * (W * bytesPerPixel) + c =
          (W * bytesPerPixel) * n + c by ring,
          Nat.mul_add_div hB, Nat.div_eq_of_lt hcW, Nat.add_zero]
      have hmod : k % (W * bytesPerPixel) = c := by
        rw [hck, show n * (W * bytesPerPixel) + c =
          (W * bytesPerPixel) * n + c by ring,
          Nat.mul_add_mod, Nat.mod_eq_of_lt hcW]
      rw [getD_take _ _ _ hcw, getD_drop, hdiv, hmod]
      rw [if_pos ⟨Nat.lt_succ_self n, hcw⟩]
    · rw [if_neg h1, ih (by omega) k hk]
      have hdm : (k / (W * bytesPerPixel)) * (W * bytesPerPixel) +
          k % (W * bytesPerPixel) = k := by
        rw [Nat.mul_comm]; exact Nat.div_add_mod k (W * bytesPerPixel)
      have hiff : (k / (W * bytesPerPixel) < n ∧
          k % (W * bytesPerPixel) < w * bytesPerPixel) ↔
          (k / (W * bytesPerPixel) < n + 1 ∧
          k % (W * bytesPerPixel) < w * bytesPerPixel) := by
        constructor
        · rintro ⟨hq, hr⟩; exact ⟨Nat.lt_succ_of_lt hq, hr⟩
        · rintro ⟨hq, hr⟩
          refine ⟨?_, hr⟩
          rcases Nat.lt_succ_iff_lt_or_eq.mp hq with hq' | hq'
          · exact hq'
          · exfalso
            apply h1
            constructor
            · calc n * (W * bytesPerPixel)
                  = (k / (W * bytesPerPixel)) * (W * bytesPerPixel) := by
                    rw [hq']
                _ ≤ k := by omega
            · calc k = (k / (W * bytesPerPixel)) * (W * bytesPerPixel) +
                    k % (W * bytesPerPixel) := hdm.symm
                _ < (k / (W * bytesPerPixel)) * (W * bytesPerPixel) +
                    w * bytesPerPixel := by omega
                _ = n * (W * bytesPerPixel) + w * bytesPerPixel := by
                    rw [hq']
      exact if_congr hiff rfl rfl ▸ rfl

theorem reconcile_getD (W w h H : Nat) (page : List Nat)
    (hW : 0 < W) (hw : w ≤ W) (hh : h ≤ H)
    (hp : page.length = W * H * bytesPerPixel)
    (k : Nat) (hk : k < W * H * bytesPerPixel) :
    (reconcile W w h page).getD k 0 =
      if k / (W * bytesPerPixel) < h ∧
          k % (W * bytesPerPixel) < w * bytesPerPixel then
        page.getD
          ((k / (W * bytesPerPixel)) * (w * bytesPerPixel) +
            k % (W * bytesPerPixel)) 0
      else 0 := by
  have := reconcile_fold_getD W w H page hW hw hp h hh k hk
  simpa [reconcile] using this

theorem rowcol_div (B r c : Nat) (hB : 0 < B) (hc : c < B) :
    (r * B + c) / B = r := by
  rw [show r * B + c = B * r + c by ring, Nat.mul_add_div hB,
    Nat.div_eq_of_lt hc, Nat.add_zero]

theorem rowcol_mod (B r c : Nat) (hc : c < B) :
    (r * B + c) % B = c := by
  rw [show r * B + c = B * r + c by ring, Nat.mul_add_mod,
    Nat.mod_eq_of_lt hc]

/-- C6: on every capture iteration the fetch dimensions are the per-axis
minimum of the current window dimensions and the frame store's fixed page
dimensions (`fetchW = min windowWidth storeWidth`,
`fetchH = min windowHeight storeHeight`); for a 1000×800 window with an
800×600 page the fetch requests exactly 800×600, and the fetched byte
count `fetchW * fetchH * bytesPerPixel` never exceeds the page size in
the store. -/
theorem fetch_clamp_min (ww wh : Nat) (b : Buffer) :
    clampDim ww b.Width = min ww b.Width ∧
    clampDim wh b.Height = min wh b.Height ∧
    clampDim ww b.Width * clampDim wh b.Height * bytesPerPixel ≤
      b.PageSize ∧
    clampDim 1000 800 = 800 ∧ clampDim 800 600 = 600 := by
  have hmin : ∀ d c : Nat, clampDim d c = min d c := by
    intro d c
    unfold clampDim
    rcases Nat.lt_or_ge c d with h | h
    · rw [if_pos h, Nat.min_def, if_neg (by omega)]
    · rw [if_neg (by omega), Nat.min_def, if_pos h]
  refine ⟨hmin _ _, hmin _ _, ?_, by decide, by decide⟩
  rw [hmin, hmin]
  exact Nat.mul_le_mul
    (Nat.mul_le_mul (Nat.min_le_right _ _) (Nat.min_le_right _ _))
    (Nat.le_refl _)

/-- C5: when `fetchW < storeWidth` or `fetchH < storeHeight`, after
reconciliation every row `r < fetchH` of the page holds the fetched row
`r`'s `fetchW` pixels starting at byte offset `r * storeWidth * 4`, and
every byte outside that `fetchW × fetchH` top-left sub-rectangle (right
margin of each captured row, and all rows from `fetchH` on) is zero.
The page before reconciliation is the result of the fetch writing the
packed `fetchW × fetchH` data over the page's stale contents. -/
theorem fetch_reconcile_partial (W H w h : Nat) (stale fetched : List Nat)
    (hW : 0 < W) (hw : w ≤ W) (hh : h ≤ H) (hlt : w < W ∨ h < H)
    (hstale : stale.length = W * H * bytesPerPixel)
    (hfetched : fetched.length = w * h * bytesPerPixel) :
    (∀ r c, r < h → c < w * bytesPerPixel →
      (reconcile W w h (copyAt stale 0 fetched)).getD
        (r * (W * bytesPerPixel) + c) 0 =
        fetched.getD (r * (w * bytesPerPixel) + c) 0) ∧
    (∀ k, k < W * H * bytesPerPixel →
      h ≤ k / (W * bytesPerPixel) ∨
        w * bytesPerPixel ≤ k % (W * bytesPerPixel) →
      (reconcile W w h (copyAt stale 0 fetched)).getD k 0 = 0) := by
  have hB : 0 < W * bytesPerPixel :=
    Nat.mul_pos hW (by norm_num [bytesPerPixel])
  have hfs : fetched.length ≤ stale.length := by
    rw [hstale, hfetched]
    exact Nat.mul_le_mul (Nat.mul_le_mul hw hh) (Nat.le_refl _)
  have hpage : (copyAt stale 0 fetched).length = W * H * bytesPerPixel := by
    rw [copyAt_length _ _ _ (Nat.zero_le _), hstale]
  have hfetchbytes : ∀ j, j < fetched.length →
      (copyAt stale 0 fetched).getD j 0 = fetched.getD j 0 := by
    intro j hj
    rw [copyAt_getD _ _ _ (by omega) j, if_pos ⟨Nat.zero_le _, by omega⟩,
      Nat.sub_zero]
  constructor
  · intro r c hr hc
    have hcW : c < W * bytesPerPixel := by
      have := Nat.mul_le_mul_right bytesPerPixel hw
      omega
    have hk : r * (W * bytesPerPixel) + c < W * H * bytesPerPixel := by
      calc r * (W * bytesPerPixel) + c
          < r * (W * bytesPerPixel) + W * bytesPerPixel := by omega
        _ = (r + 1) * (W * bytesPerPixel) := by ring
        _ ≤ H * (W * bytesPerPixel) := Nat.mul_le_mul_right _ (by omega)
        _ = W * H * bytesPerPixel := by ring
    rw [reconcile_getD W w h H _ hW hw hh hpage _ hk,
      rowcol_div _ _ _ hB hcW, rowcol_mod _ _ _ hcW, if_pos ⟨hr, hc⟩]
    apply hfetchbytes
    rw [hfetched]
    calc r * (w * bytesPerPixel) + c
        < r * (w * bytesPerPixel) + w * bytesPerPixel := by omega
      _ = (r + 1) * (w * bytesPerPixel) := by ring
      _ ≤ h * (w * bytesPerPixel) := Nat.mul_le_mul_right _ (by omega)
      _ = w * h * bytesPerPixel := by ring
  · intro k hk hout
    rw [reconcile_getD W w h H _ hW hw hh hpage _ hk, if_neg (by omega)]

theorem fetch_reconcile_partial_witness :
    (reconcile 2 1 1 (copyAt (List.replicate 16 7) 0 [1, 2, 3, 4])).getD
      0 0 = 1 ∧
    (reconcile 2 1 1 (copyAt (List.replicate 16 7) 0 [1, 2, 3, 4])).getD
      4 0 = 0 := by
  have h := fetch_reconcile_partial 2 2 1 1 (List.replicate 16 7)
    [1, 2, 3, 4] (by decide) (by decide) (by decide) (Or.inl (by decide))
    (by decide) (by decide)
  exact ⟨(h.1 0 0 (by decide) (by decide)).trans (by decide),
    h.2 4 (by decide) (Or.inr (by decide))⟩

/-! ## Cursor compositor (`drawCursor`)

`blendPixelAt` embeds the four assignments at the bottom of the Go
`drawCursor` loop body; the cursor sample `p` is a `uint32` holding ARGB
(alpha in the high byte), the page holds BGRA bytes.  All `uint32`
arithmetic is modelled by reducing modulo `2 ^ 32`; `byte(e)` is
`e % 256`. -/

def blendPixelAt (page : List Nat) (off : Nat) (p : Nat) : List Nat :=
  let q := p % 2 ^ 32
  let srcA := q / 2 ^ 24
  let alpha := srcA + 1
  let invAlpha := 256 - srcA
  let pg := page.set (off + 3) 255
  let pg := pg.set (off + 2)
    ((alpha * (q / 2 ^ 16 % 256) + invAlpha * pg.getD (off + 2) 0) % 2 ^ 32
      / 2 ^ 8 % 256)
  let pg := pg.set (off + 1)
    ((alpha * (q / 2 ^ 8 % 256) + invAlpha * pg.getD (off + 1) 0) % 2 ^ 32
      / 2 ^ 8 % 256)
  let pg := pg.set (off + 0)
    ((alpha * (q % 256) + invAlpha * pg.getD (off + 0) 0) % 2 ^ 32
      / 2 ^ 8 % 256)
  pg

/-- Destination row of cursor pixel `i`, as the Go `int` expression
`i/int(cursor.Width) + int(pos.DstY) - int(cursor.Yhot)`. -/
def pixRow (cw : Nat) (dy yh : Int) (i : Nat) : Int :=
  ((i / cw : Nat) : Int) + dy - yh

/-- Destination column of cursor pixel `i`, as the Go `int` expression
`i%int(cursor.Width) + int(pos.DstX) - int(cursor.Xhot)`. -/
def pixCol (cw : Nat) (dx xh : Int) (i : Nat) : Int :=
  ((i % cw : Nat) : Int) + dx - xh

/-- The per-pixel clip test of the Go loop:
`row >= buf.Height || col >= buf.Width || row < 0 || col < 0`. -/
def pixOOB (W H cw : Nat) (dx dy xh yh : Int) (i : Nat) : Prop :=
  (H : Int) ≤ pixRow cw dy yh i ∨ (W : Int) ≤ pixCol cw dx xh i ∨
    pixRow cw dy yh i < 0 ∨ pixCol cw dx xh i < 0

instance (W H cw : Nat) (dx dy xh yh : Int) (i : Nat) :
    Decidable (pixOOB W H cw dx dy xh yh i) := by
  unfold pixOOB
  infer_instance

/-- Byte offset of cursor pixel `i` in the page:
`row*buf.Width*bytesPerPixel + col*bytesPerPixel` (at its use the loop
has established `row ≥ 0` and `col ≥ 0`). -/
def pixOff (W cw : Nat) (dx dy xh yh : Int) (i : Nat) : Nat :=
  (pixRow cw dy yh i).toNat * (W * bytesPerPixel) +
    (pixCol cw dx xh i).toNat * bytesPerPixel

/-- The `for i, p := range cursor.CursorImage` loop of `drawCursor`:
scan pixels in row-major order, `break` at the first out-of-bounds
destination, otherwise blend and continue. -/
def drawLoop (W H cw : Nat) (dx dy xh yh : Int) :
    Nat → List Nat → List Nat → List Nat
  | _, [], page => page
  | i, p :: rest, page =>
    if pixOOB W H cw dx dy xh yh i then page
    else drawLoop W H cw dx dy xh yh (i + 1) rest
      (blendPixelAt page (pixOff W cw dx dy xh yh i) p)

structure Cursor where
  width : Nat
  xhot : Nat
  yhot : Nat
  image : List Nat
deriving DecidableEq

/-- The Go `drawCursor` function.  `copt`/`popt` model the results of
`xfixes.GetCursorImage` and `xproto.TranslateCoordinates`: on either
failure the function returns the page unchanged.  Otherwise the outer
bounds test `pos.DstY < 0 || pos.DstX < 0 || int(pos.DstY) > buf.Height
|| int(pos.DstX) > buf.Width` rejects the cursor, else the pixel loop
runs. -/
def drawCursor (W H : Nat) (copt : Option Cursor)
    (popt : Option (Int × Int)) (page : List Nat) : List Nat :=
  match copt, popt with
  | some c, some (dx, dy) =>
    if dy < 0 ∨ dx < 0 ∨ (H : Int) < dy ∨ (W : Int) < dx then page
    else drawLoop W H c.width dx dy (c.xhot : Int) (c.yhot : Int) 0
      c.image page
  | _, _ => page

theorem blend_bound (a s d : Nat) (ha : a < 256) (hs : s < 256)
    (hd : d < 256) : (a + 1) * s + (256 - a) * d < 65536 := by
  have h1 : (a + 1) * s ≤ (a + 1) * 255 := Nat.mul_le_mul_left _ (by omega)
  have h2 : (256 - a) * d ≤ (256 - a) * 255 := Nat.mul_le_mul_left _ (by omega)
  have h3 : (a + 1) * 255 + (256 - a) * 255 = 257 * 255 := by
    rw [← Nat.add_mul]
    congr 1
    omega
  omega

theorem blendPixelAt_getD (page : List Nat) (off p : Nat)
    (hlen : off + 3 < page.length) :
    (blendPixelAt page off p).getD (off + 3) 0 = 255 ∧
    (blendPixelAt page off p).getD (off + 2) 0 =
      ((p % 2 ^ 32 / 2 ^ 24 + 1) * (p % 2 ^ 32 / 2 ^ 16 % 256) +
        (256 - p % 2 ^ 32 / 2 ^ 24) * page.getD (off + 2) 0) % 2 ^ 32
        / 2 ^ 8 % 256 ∧
    (blendPixelAt page off p).getD (off + 1) 0 =
      ((p % 2 ^ 32 / 2 ^ 24 + 1) * (p % 2 ^ 32 / 2 ^ 8 % 256) +
        (256 - p % 2 ^ 32 / 2 ^ 24) * page.getD (off + 1) 0) % 2 ^ 32
        / 2 ^ 8 % 256 ∧
    (blendPixelAt page off p).getD (off + 0) 0 =
      ((p % 2 ^ 32 / 2 ^ 24 + 1) * (p % 2 ^ 32 % 256) +
        (256 - p % 2 ^ 32 / 2 ^ 24) * page.getD (off + 0) 0) % 2 ^ 32
        / 2 ^ 8 % 256 := by
  simp only [blendPixelAt]
  refine ⟨?_, ?_, ?_, ?_⟩
  · rw [getD_set_ne _ _ _ _ (by omega), getD_set_ne _ _ _ _ (by omega),
      getD_set_ne _ _ _ _ (by omega),
      getD_set_self _ _ _ (by omega)]
  · rw [getD_set_ne _ _ _ _ (by omega), getD_set_ne _ _ _ _ (by omega),
      getD_set_self _ _ _ (by simp only [List.length_set]; omega),
      getD_set_ne _ _ _ _ (by omega)]
  · rw [getD_set_ne _ _ _ _ (by omega),
      getD_set_self _ _ _ (by simp only [List.length_set]; omega),
      getD_set_ne _ _ _ _ (by omega), getD_set_ne _ _ _ _ (by omega)]
  · rw [getD_set_self _ _ _ (by simp only [List.length_set]; omega),
      getD_set_ne _ _ _ _ (by omega), getD_set_ne _ _ _ _ (by omega),
      getD_set_ne _ _ _ _ (by omega)]

/-- C3: every cursor pixel blended into the page updates each colour
channel as `outChannel = ((srcAlpha+1)*srcChannel + (256-srcAlpha)*dstChannel) >> 8`
and forces the destination alpha byte to 255; when `srcAlpha = 255` the
output colour channel equals the source channel, and when `srcAlpha = 0`
the output equals `(1*src + 256*dst) >> 8`. -/
theorem cursor_blend_correct (page : List Nat) (off p : Nat)
    (hlen : off + 3 < page.length) (hp : p < 2 ^ 32)
    (hd2 : page.getD (off + 2) 0 < 256)
    (hd1 : page.getD (off + 1) 0 < 256)
    (hd0 : page.getD (off + 0) 0 < 256) :
    (blendPixelAt page off p).getD (off + 3) 0 = 255 ∧
    (blendPixelAt page off p).getD (off + 2) 0 =
      ((p / 2 ^ 24 + 1) * (p / 2 ^ 16 % 256) +
        (256 - p / 2 ^ 24) * page.getD (off + 2) 0) / 2 ^ 8 ∧
    (blendPixelAt page off p).getD (off + 1) 0 =
      ((p / 2 ^ 24 + 1) * (p / 2 ^ 8 % 256) +
        (256 - p / 2 ^ 24) * page.getD (off + 1) 0) / 2 ^ 8 ∧
    (blendPixelAt page off p).getD (off + 0) 0 =
      ((p / 2 ^ 24 + 1) * (p % 256) +
        (256 - p / 2 ^ 24) * page.getD (off + 0) 0) / 2 ^ 8 ∧
    (p / 2 ^ 24 = 255 →
      (blendPixelAt page off p).getD (off + 2) 0 = p / 2 ^ 16 % 256 ∧
      (blendPixelAt page off p).getD (off + 1) 0 = p / 2 ^ 8 % 256 ∧
      (blendPixelAt page off p).getD (off + 0) 0 = p % 256) ∧
    (p / 2 ^ 24 = 0 →
      (blendPixelAt page off p).getD (off + 2) 0 =
        (1 * (p / 2 ^ 16 % 256) + 256 * page.getD (off + 2) 0) / 2 ^ 8 ∧
      (blendPixelAt page off p).getD (off + 1) 0 =
        (1 * (p / 2 ^ 8 % 256) + 256 * page.getD (off + 1) 0) / 2 ^ 8 ∧
      (blendPixelAt page off p).getD (off + 0) 0 =
        (1 * (p % 256) + 256 * page.getD (off + 0) 0) / 2 ^ 8) := by
  obtain ⟨g3, g2, g1, g0⟩ := blendPixelAt_getD page off p hlen
  have hq : p % 2 ^ 32 = p := Nat.mod_eq_of_lt hp
  rw [hq] at g2 g1 g0
  have hA : p / 2 ^ 24 < 256 := by omega
  have clean : ∀ s d : Nat, s < 256 → d < 256 →
      ((p / 2 ^ 24 + 1) * s + (256 - p / 2 ^ 24) * d) % 2 ^ 32
        / 2 ^ 8 % 256 =
      ((p / 2 ^ 24 + 1) * s + (256 - p / 2 ^ 24) * d) / 2 ^ 8 := by
    intro s d hs hd
    have hb := blend_bound (p / 2 ^ 24) s d hA hs hd
    rw [Nat.mod_eq_of_lt (by omega), Nat.mod_eq_of_lt (by omega)]
  have hs2 : p / 2 ^ 16 % 256 < 256 := Nat.mod_lt _ (by norm_num)
  have hs1 : p / 2 ^ 8 % 256 < 256 := Nat.mod_lt _ (by norm_num)
  have hs0 : p % 256 < 256 := Nat.mod_lt _ (by norm_num)
  rw [clean _ _ hs2 hd2] at g2
  rw [clean _ _ hs1 hd1] at g1
  rw [clean _ _ hs0 hd0] at g0
  have opaque255 : ∀ s d : Nat, s < 256 → d < 256 →
      ((255 + 1) * s + (256 - 255) * d) / 2 ^ 8 = s := by
    intro s d hs hd
    rw [show (255 + 1) * s + (256 - 255) * d = 2 ^ 8 * s + d by ring]
    rw [Nat.mul_add_div (by norm_num), Nat.div_eq_of_lt (by omega),
      Nat.add_zero]
  refine ⟨g3, g2, g1, g0, ?_, ?_⟩
  · intro h255
    rw [h255] at g2 g1 g0
    exact ⟨g2.trans (opaque255 _ _ hs2 hd2),
      g1.trans (opaque255 _ _ hs1 hd1), g0.trans (opaque255 _ _ hs0 hd0)⟩
  · intro h0
    rw [h0] at g2 g1 g0
    exact ⟨g2.trans (by norm_num), g1.trans (by norm_num),
      g0.trans (by norm_num)⟩

theorem cursor_blend_correct_witness :
    (blendPixelAt [10, 20, 30, 40] 0 4278256131).getD 3 0 = 255 ∧
    (blendPixelAt [10, 20, 30, 40] 0 4278256131).getD 2 0 = 1 ∧
    (blendPixelAt [10, 20, 30, 40] 0 4278256131).getD 1 0 = 2 ∧
    (blendPixelAt [10, 20, 30, 40] 0 4278256131).getD 0 0 = 3 := by
  have h := cursor_blend_correct [10, 20, 30, 40] 0 4278256131
    (by decide) (by decide) (by decide) (by decide) (by decide)
  have h255 := h.2.2.2.2.1 (by norm_num)
  exact ⟨h.1, h255.1.trans (by norm_num), h255.2.1.trans (by norm_num),
    h255.2.2.trans (by norm_num)⟩

theorem blendPixelAt_getD_ne (page : List Nat) (off p k : Nat)
    (h : k < off ∨ off + 3 < k) :
    (blendPixelAt page off p).getD k 0 = page.getD k 0 := by
  simp only [blendPixelAt]
  rw [getD_set_ne _ _ _ _ (by omega), getD_set_ne _ _ _ _ (by omega),
    getD_set_ne _ _ _ _ (by omega), getD_set_ne _ _ _ _ (by omega)]

theorem drawLoop_take (W H cw : Nat) (dx dy xh yh : Int) :
    ∀ (img : List Nat) (i₀ j : Nat) (page : List Nat),
      (∀ d, d < j → ¬ pixOOB W H cw dx dy xh yh (i₀ + d)) →
      (j < img.length → pixOOB W H cw dx dy xh yh (i₀ + j)) →
      drawLoop W H cw dx dy xh yh i₀ img page =
        drawLoop W H cw dx dy xh yh i₀ (img.take j) page := by
  intro img
  induction img with
  | nil =>
    intro i₀ j page _ _
    simp
  | cons p rest ih =>
    intro i₀ j page hin hout
    cases j with
    | zero =>
      have hoob : pixOOB W H cw dx dy xh yh i₀ := by
        have := hout (by simp)
        simpa using this
      simp [drawLoop, hoob]
    | succ n =>
      have hnoob : ¬ pixOOB W H cw dx dy xh yh i₀ := by
        have := hin 0 (by omega)
        simpa using this
      rw [List.take_succ_cons]
      simp only [drawLoop, if_neg hnoob]
      refine ih (i₀ + 1) n _ ?_ ?_
      · intro d hd
        have := hin (d + 1) (by omega)
        rwa [show i₀ + (d + 1) = i₀ + 1 + d by omega] at this
      · intro hn
        have := hout (by simp only [List.length_cons]; omega)
        rwa [show i₀ + (n + 1) = i₀ + 1 + n by omega] at this

theorem drawLoop_frame (W H cw : Nat) (dx dy xh yh : Int) :
    ∀ (img : List Nat) (i₀ : Nat) (page : List Nat) (k : Nat),
      (∀ d, d < img.length →
        k < pixOff W cw dx dy xh yh (i₀ + d) ∨
          pixOff W cw dx dy xh yh (i₀ + d) + 3 < k) →
      (drawLoop W H cw dx dy xh yh i₀ img page).getD k 0 =
        page.getD k 0 := by
  intro img
  induction img with
  | nil =>
    intro i₀ page k _
    simp [drawLoop]
  | cons p rest ih =>
    intro i₀ page k hk
    by_cases hoob : pixOOB W H cw dx dy xh yh i₀
    · simp [drawLoop, hoob]
    · simp only [drawLoop, if_neg hoob]
      rw [ih (i₀ + 1) _ k ?_]
      · refine blendPixelAt_getD_ne _ _ _ _ ?_
        have := hk 0 (by simp only [List.length_cons]; omega)
        simpa using this
      · intro d hd
        have := hk (d + 1) (by simp only [List.length_cons]; omega)
        rwa [show i₀ + (d + 1) = i₀ + 1 + d by omega] at this

/-- C4: the cursor compositor scans the cursor bitmap in row-major order
and, at the first pixel index `j` whose destination falls outside the
page, stops processing all remaining pixels (the result only depends on
the prefix before `j`); every page byte not written by a blend of a
pixel before `j` is left unchanged. -/
theorem cursor_clip_scan_order (W H cw : Nat) (dx dy xh yh : Int)
    (img page : List Nat) (j : Nat)
    (hin : ∀ d, d < j → ¬ pixOOB W H cw dx dy xh yh d)
    (hout : j < img.length → pixOOB W H cw dx dy xh yh j) :
    drawLoop W H cw dx dy xh yh 0 img page =
      drawLoop W H cw dx dy xh yh 0 (img.take j) page ∧
    ∀ k, (∀ d, d < j → k < pixOff W cw dx dy xh yh d ∨
          pixOff W cw dx dy xh yh d + 3 < k) →
      (drawLoop W H cw dx dy xh yh 0 img page).getD k 0 =
        page.getD k 0 := by
  have htake := drawLoop_take W H cw dx dy xh yh img 0 j page
    (fun d hd => by simpa using hin d hd)
    (fun hj => by simpa using hout hj)
  refine ⟨htake, ?_⟩
  intro k hk
  rw [htake]
  refine drawLoop_frame W H cw dx dy xh yh (img.take j) 0 page k ?_
  intro d hd
  have hdj : d < j := by
    have := List.length_take j img
    simp only [List.length_take] at *
    omega
  simpa using hk d hdj

theorem cursor_clip_scan_order_witness :
    drawLoop 2 1 1 0 0 0 0 0 [4278190080, 4278190080]
      (List.replicate 8 200) =
      drawLoop 2 1 1 0 0 0 0 0 ([4278190080, 4278190080].take 1)
        (List.replicate 8 200) ∧
    (drawLoop 2 1 1 0 0 0 0 0 [4278190080, 4278190080]
      (List.replicate 8 200)).getD 4 0 = 200 := by
  have h := cursor_clip_scan_order 2 1 1 0 0 0 0
    [4278190080, 4278190080] (List.replicate 8 200) 1
    (by decide) (fun _ => by decide)
  exact ⟨h.1, (h.2 4 (by decide)).trans (by decide)⟩

/-- C10: a translated cursor position with negative x or y makes
`drawCursor` return the page unchanged regardless of the hotspot, while
a position exactly equal to the page width and height passes the outer
bounds test (`>` rather than `>=`) and blending can still occur for
pixels left of / above the hotspot — witnessed by a 1×1 cursor with
hotspot (1,1) at position (2,2) on a 2×2 page, which changes the page. -/
theorem cursor_outer_bounds :
    (∀ (W H : Nat) (c : Cursor) (dx dy : Int) (page : List Nat),
      dx < 0 ∨ dy < 0 →
      drawCursor W H (some c) (some (dx, dy)) page = page) ∧
    drawCursor 2 2 (some ⟨1, 1, 1, [4278190080]⟩) (some (2, 2))
      (List.replicate 16 200) ≠ List.replicate 16 200 := by
  constructor
  · intro W H c dx dy page h
    simp only [drawCursor]
    rcases h with h | h
    · rw [if_pos (Or.inr (Or.inl h))]
    · rw [if_pos (Or.inl h)]
  · decide

theorem cursor_outer_bounds_witness :
    drawCursor 2 2 (some ⟨1, 1, 1, [4278190080]⟩) (some (-1, 0))
      (List.replicate 16 200) = List.replicate 16 200 :=
  cursor_outer_bounds.1 2 2 ⟨1, 1, 1, [4278190080]⟩ (-1) 0
    (List.replicate 16 200) (Or.inl (by norm_num))

/-! ## Pacer (consumer goroutine) and `sendFrame`

State: `idx` starts at `-1` (`idx := -1` in the source) and is
incremented at the top of `sendFrame`; `dropped` counts ticks whose
non-blocking receive found no frame; `prevFrame` is the `prevFrame`
slice (`nil` modelled as `[]`).  A tick is `some page` when the
`select` receives from the handoff channel and `none` when it falls
into the `default` branch.  `interval fps` is the Go value
`int(time.Second / time.Duration(fps))` = `10^9 / fps` (integer
division); an emission is one Matroska cluster: its `Timecode` and the
`SimpleBlock` bytes `[129, 0, 0, 128] ++ frame`. -/

structure PacerState where
  idx : Int
  dropped : Nat
  prevFrame : List Nat
deriving DecidableEq

structure Emission where
  timecode : Int
  payload : List Nat
deriving DecidableEq

def blockHeader : List Nat := [129, 0, 0, 128]

def interval (fps : Nat) : Int := ((10 ^ 9 / fps : Nat) : Int)

def pacerInit : PacerState := ⟨-1, 0, []⟩

def sendFrame (fps : Nat) (s : PacerState) (b : Option (List Nat)) :
    PacerState × Emission :=
  let idx := s.idx + 1
  let frame := match b with
    | none => s.prevFrame
    | some bb => bb
  (⟨idx, s.dropped, frame⟩, ⟨idx * interval fps, blockHeader ++ frame⟩)

def pacerTick (fps : Nat) (s : PacerState) :
    Option (List Nat) → PacerState × Emission
  | some b => sendFrame fps s (some b)
  | none => sendFrame fps ⟨s.idx, s.dropped + 1, s.prevFrame⟩ none

def pacerRun (fps : Nat) (s : PacerState) :
    List (Option (List Nat)) → PacerState × List Emission
  | [] => (s, [])
  | t :: ts =>
    let r := pacerTick fps s t
    let rest := pacerRun fps r.1 ts
    (rest.1, r.2 :: rest.2)

theorem pacerTick_some (fps : Nat) (s : PacerState) (b : List Nat) :
    pacerTick fps s (some b) =
      (⟨s.idx + 1, s.dropped, b⟩,
       ⟨(s.idx + 1) * interval fps, blockHeader ++ b⟩) := rfl

theorem pacerTick_none (fps : Nat) (s : PacerState) :
    pacerTick fps s none =
      (⟨s.idx + 1, s.dropped + 1, s.prevFrame⟩,
       ⟨(s.idx + 1) * interval fps, blockHeader ++ s.prevFrame⟩) := rfl

theorem pacerRun_length (fps : Nat) :
    ∀ (ts : List (Option (List Nat))) (s : PacerState),
      ((pacerRun fps s ts).2).length = ts.length := by
  intro ts
  induction ts with
  | nil => intro s; rfl
  | cons t ts ih =>
    intro s
    simp [pacerRun, ih]

theorem pacerRun_idx (fps : Nat) :
    ∀ (ts : List (Option (List Nat))) (s : PacerState),
      (pacerRun fps s ts).1.idx = s.idx + ts.length := by
  intro ts
  induction ts with
  | nil => intro s; simp [pacerRun]
  | cons t ts ih =>
    intro s
    have hidx : (pacerTick fps s t).1.idx = s.idx + 1 := by
      cases t <;> rfl
    simp only [pacerRun, ih, hidx, List.length_cons]
    push_cast
    ring

theorem pacerRun_dropped (fps : Nat) :
    ∀ (ts : List (Option (List Nat))) (s : PacerState),
      (pacerRun fps s ts).1.dropped =
        s.dropped + ts.countP Option.isNone := by
  intro ts
  induction ts with
  | nil => intro s; simp [pacerRun]
  | cons t ts ih =>
    intro s
    cases t with
    | none =>
      simp only [pacerRun, ih, pacerTick_none, List.countP_cons]
      simp [Option.isNone]
      omega
    | some b =>
      simp only [pacerRun, ih, pacerTick_some, List.countP_cons]
      simp [Option.isNone]

/-- C1: for every tick of the pacer exactly one frame is emitted: an
available page is emitted and remembered as the last frame, otherwise
the drop counter increases by exactly one and the remembered last
frame's bytes are re-emitted; the sequence index increments by exactly
one per tick, and after any run of ticks the drop counter has grown by
exactly the number of ticks with no available frame. -/
theorem pacer_tick_accounting (fps : Nat) (s : PacerState)
    (ticks : List (Option (List Nat))) :
    ((pacerRun fps s ticks).2).length = ticks.length ∧
    (pacerRun fps s ticks).1.idx = s.idx + ticks.length ∧
    (pacerRun fps s ticks).1.dropped =
      s.dropped + ticks.countP Option.isNone ∧
    (∀ b, pacerTick fps s (some b) =
      (⟨s.idx + 1, s.dropped, b⟩,
       ⟨(s.idx + 1) * interval fps, blockHeader ++ b⟩)) ∧
    pacerTick fps s none =
      (⟨s.idx + 1, s.dropped + 1, s.prevFrame⟩,
       ⟨(s.idx + 1) * interval fps, blockHeader ++ s.prevFrame⟩) :=
  ⟨pacerRun_length fps ticks s, pacerRun_idx fps ticks s,
    pacerRun_dropped fps ticks s, fun b => pacerTick_some fps s b,
    pacerTick_none fps s⟩

theorem pacerRun_timecodes (fps : Nat) :
    ∀ (ts : List (Option (List Nat))) (s : PacerState),
      ((pacerRun fps s ts).2).map Emission.timecode =
        (List.range ts.length).map
          (fun j : Nat => (s.idx + 1 + (j : Int)) * interval fps) := by
  intro ts
  induction ts with
  | nil => intro s; simp [pacerRun]
  | cons t ts ih =>
    intro s
    have hidx : (pacerTick fps s t).1.idx = s.idx + 1 := by
      cases t <;> rfl
    have htc : (pacerTick fps s t).2.timecode =
        (s.idx + 1) * interval fps := by
      cases t <;> rfl
    simp only [pacerRun, List.map_cons, htc]
    rw [ih (pacerTick fps s t).1, hidx, List.length_cons,
      List.range_succ_eq_map, List.map_cons, List.map_map]
    congr 1
    · push_cast
      ring
    · congr 1
      funext j
      simp only [Function.comp]
      push_cast
      ring

/-- C9: every emitted frame carries timestamp `index * interval`
(`interval` = `10^9 / fps` in nanosecond timecode units, the
implementation's `int(time.Second / time.Duration(fps))`), and over any
run the emitted timestamps are strictly increasing.  The hypotheses
`0 < fps ≤ 10^9` delimit the runs that emit at all: outside them the
program crashes before the first tick (`fps = 0` divides by zero when
building the track header, `fps > 10^9` makes the tick interval 0 and
`time.NewTicker` panics). -/
theorem pacer_timestamps (fps : Nat) (ticks : List (Option (List Nat)))
    (hfps : 0 < fps) (hmax : fps ≤ 10 ^ 9) :
    ((pacerRun fps pacerInit ticks).2).map Emission.timecode =
      (List.range ticks.length).map
        (fun j : Nat => (j : Int) * interval fps) ∧
    (((pacerRun fps pacerInit ticks).2).map Emission.timecode).Pairwise
      (· < ·) := by
  have h1 : ((pacerRun fps pacerInit ticks).2).map Emission.timecode =
      (List.range ticks.length).map
        (fun j : Nat => (j : Int) * interval fps) := by
    rw [pacerRun_timecodes fps ticks pacerInit]
    congr 1
    funext j
    show (pacerInit.idx + 1 + j) * interval fps = (j : Int) * interval fps
    norm_num [pacerInit]
  refine ⟨h1, ?_⟩
  rw [h1]
  have hd : 0 < interval fps := by
    have : 0 < 10 ^ 9 / fps := Nat.div_pos hmax hfps
    simp only [interval]
    exact_mod_cast this
  rw [List.pairwise_map]
  refine (List.pairwise_lt_range _).imp ?_
  intro a b hab
  exact mul_lt_mul_of_pos_right (by exact_mod_cast hab) hd

theorem pacer_timestamps_witness :
    ((pacerRun 60 pacerInit [some [1], none]).2).map Emission.timecode =
      [0, 16666666] ∧
    (((pacerRun 60 pacerInit [some [1], none]).2).map
      Emission.timecode).Pairwise (· < ·) := by
  have h := pacer_timestamps 60 [some [1], none] (by norm_num) (by norm_num)
  exact ⟨h.1.trans (by decide), h.2⟩

theorem pacerRun_all_none_payload (fps : Nat) :
    ∀ (ts : List (Option (List Nat))) (s : PacerState),
      (∀ t ∈ ts, t = none) →
      ∀ e ∈ (pacerRun fps s ts).2,
        e.payload = blockHeader ++ s.prevFrame := by
  intro ts
  induction ts with
  | nil =>
    intro s _ e he
    simp [pacerRun] at he
  | cons t ts ih =>
    intro s hall e he
    have ht : t = none := hall t (by simp)
    subst ht
    simp only [pacerRun, pacerTick_none] at he
    rcases List.mem_cons.mp he with rfl | hmem
    · rfl
    · exact ih ⟨s.idx + 1, s.dropped + 1, s.prevFrame⟩
        (fun u hu => hall u (List.mem_cons_of_mem _ hu)) e hmem

/-- C8 (counterexample): on the first tick, before any frame has ever
been produced, the pacer does not emit nothing and does not block: the
`select`'s `default` branch runs `dropped++; sendFrame(nil)`, emitting
one cluster whose `SimpleBlock` consists of the 4 header bytes followed
by the nil `prevFrame`, i.e. zero pixel bytes. -/
theorem pacer_first_tick_emits :
    (pacerRun 60 pacerInit [none]).2 = [⟨0, [129, 0, 0, 128]⟩] := by
  decide

/-- C8 (amended): before any real frame has been produced, each tick
with no available frame emits a frame whose pixel payload is empty (the
block is exactly the 4 header bytes, the nil remembered frame
contributing nothing) and increments the drop counter; so the pacer
neither emits garbage pixel bytes nor suppresses emission nor blocks. -/
theorem pacer_initial_state_empty_payload (fps : Nat)
    (ticks : List (Option (List Nat))) (h : ∀ t ∈ ticks, t = none) :
    (∀ e ∈ (pacerRun fps pacerInit ticks).2, e.payload = blockHeader) ∧
    (pacerRun fps pacerInit ticks).1.dropped = ticks.length := by
  constructor
  · intro e he
    have := pacerRun_all_none_payload fps ticks pacerInit h e he
    simpa [pacerInit] using this
  · rw [pacerRun_dropped]
    have hcnt : ticks.countP Option.isNone = ticks.length := by
      rw [List.countP_eq_length]
      intro a ha
      rw [h a ha]
      rfl
    simp [pacerInit, hcnt]

theorem pacer_initial_state_empty_payload_witness :
    (∀ e ∈ (pacerRun 60 pacerInit [none, none]).2,
      e.payload = blockHeader) ∧
    (pacerRun 60 pacerInit [none, none]).1.dropped = 2 := by
  have h := pacer_initial_state_empty_payload 60 [none, none] (by simp)
  exact ⟨h.1, h.2⟩

/-! ## Capture loop iteration

One pass of the capture loop's `default` branch: fetch (which either
fails — `err != nil`, `continue` — or writes the packed `w×h` rectangle
over the current page), reconcile if the fetch was smaller than the
page, composite the cursor, hand the page off, and advance the page
index `i = (i + 1) % 2`.  A failed fetch is `fetch = none`. -/

structure CapState where
  i : Nat
  pages : List (List Nat)
deriving DecidableEq

def captureStep (W H width height : Nat) (copt : Option Cursor)
    (popt : Option (Int × Int)) (st : CapState)
    (fetch : Option (List Nat)) : CapState × Option (List Nat) :=
  let w := clampDim width W
  let h := clampDim height H
  match fetch with
  | none => (st, none)
  | some data =>
    let page := copyAt (st.pages.getD st.i []) 0 data
    let page := if w < W ∨ h < H then reconcile W w h page else page
    let page := drawCursor W H copt popt page
    (⟨(st.i + 1) % 2, st.pages.set st.i page⟩, some page)

/-- C7: a failed fetch abandons the iteration: the state (page index
and every page's bytes) is returned unchanged — no reconciliation, no
cursor compositing — and nothing is handed to the pacer, so the same
page slot is retried on the next iteration; by contrast a successful
fetch advances the page index by `(i + 1) % 2`. -/
theorem fetch_failure_no_effect (W H width height : Nat)
    (copt : Option Cursor) (popt : Option (Int × Int)) (st : CapState) :
    captureStep W H width height copt popt st none = (st, none) ∧
    ∀ data,
      (captureStep W H width height copt popt st (some data)).1.i =
        (st.i + 1) % 2 :=
  ⟨rfl, fun _ => rfl⟩

/-! ## Double-buffer handoff protocol

The capture loop writes only into page `i` (fetch, reconciliation,
cursor blend) and then performs `ch <- page; i = (i + 1) % 2` on an
unbuffered channel, so the handoff is a rendezvous: it completes exactly
when the pacer receives.  A run of the producer is therefore a trace of
`write s` events (a mutation of page slot `s`) and `handoff s` events
(the completed rendezvous transferring slot `s`), and the source's
control flow says: in a state with `n` completed handoffs, the producer
only writes slot `n % 2` and only hands off slot `n % 2` (after which
`n` increases by one).  `producerValid n tr` checks a trace against
this; quantifying over all valid traces quantifies over all
interleavings with the pacer, since the pacer never writes. -/

inductive Ev where
  | write (slot : Nat)
  | handoff (slot : Nat)
deriving DecidableEq

def handoffCount : List Ev → Nat
  | [] => 0
  | Ev.write _ :: tr => handoffCount tr
  | Ev.handoff _ :: tr => handoffCount tr + 1

def producerValid : Nat → List Ev → Bool
  | _, [] => true
  | n, Ev.write s :: tr => s == n % 2 && producerValid n tr
  | n, Ev.handoff s :: tr => s == n % 2 && producerValid (n + 1) tr

theorem handoff_before_foreign_write :
    ∀ (tr : List Ev) (n k s : Nat), producerValid n tr = true →
      tr[k]? = some (Ev.write s) → s ≠ n % 2 →
      ∃ m, m < k ∧ tr[m]? = some (Ev.handoff (n % 2)) := by
  intro tr
  induction tr with
  | nil =>
    intro n k s _ hk _
    simp at hk
  | cons e tr ih =>
    intro n k s hv hk hs
    cases e with
    | write s' =>
      have hv' : s' = n % 2 ∧ producerValid n tr = true := by
        simpa [producerValid, Bool.and_eq_true, beq_iff_eq] using hv
      cases k with
      | zero =>
        simp at hk
        omega
      | succ k' =>
        obtain ⟨m, hm, hm2⟩ := ih n k' s hv'.2 (by simpa using hk) hs
        exact ⟨m + 1, by omega, by simpa using hm2⟩
    | handoff s' =>
      have hv' : s' = n % 2 ∧ producerValid (n + 1) tr = true := by
        simpa [producerValid, Bool.and_eq_true, beq_iff_eq] using hv
      cases k with
      | zero => simp at hk
      | succ k' => exact ⟨0, by omega, by simp [hv'.1]⟩

theorem handoff_no_early_reuse :
    ∀ (tr : List Ev) (n j k s : Nat), producerValid n tr = true →
      tr[j]? = some (Ev.handoff s) → tr[k]? = some (Ev.write s) →
      j < k →
      ∃ m, j < m ∧ m < k ∧ tr[m]? = some (Ev.handoff ((s + 1) % 2)) := by
  intro tr
  induction tr with
  | nil =>
    intro n j k s _ hj _ _
    simp at hj
  | cons e tr ih =>
    intro n j k s hv hj hk hjk
    cases k with
    | zero => omega
    | succ k' =>
      cases j with
      | zero =>
        simp at hj
        subst hj
        have hv' : s = n % 2 ∧ producerValid (n + 1) tr = true := by
          simpa [producerValid, Bool.and_eq_true, beq_iff_eq] using hv
        have hneq : s ≠ (n + 1) % 2 := by omega
        obtain ⟨m, hm, hm2⟩ := handoff_before_foreign_write tr (n + 1)
          k' s hv'.2 (by simpa using hk) hneq
        refine ⟨m + 1, by omega, by omega, ?_⟩
        rw [show (s + 1) % 2 = (n + 1) % 2 by omega]
        simpa using hm2
      | succ j' =>
        cases e with
        | write s' =>
          have hv' : s' = n % 2 ∧ producerValid n tr = true := by
            simpa [producerValid, Bool.and_eq_true, beq_iff_eq] using hv
          obtain ⟨m, h1, h2, h3⟩ := ih n j' k' s hv'.2
            (by simpa using hj) (by simpa using hk) (by omega)
          exact ⟨m + 1, by omega, by omega, by simpa using h3⟩
        | handoff s' =>
          have hv' : s' = n % 2 ∧ producerValid (n + 1) tr = true := by
            simpa [producerValid, Bool.and_eq_true, beq_iff_eq] using hv
          obtain ⟨m, h1, h2, h3⟩ := ih (n + 1) j' k' s hv'.2
            (by simpa using hj) (by simpa using hk) (by omega)
          exact ⟨m + 1, by omega, by omega, by simpa using h3⟩

theorem producer_write_current_slot :
    ∀ (tr : List Ev) (n k s : Nat), producerValid n tr = true →
      tr[k]? = some (Ev.write s) →
      s = (n + handoffCount (tr.take k)) % 2 := by
  intro tr
  induction tr with
  | nil =>
    intro n k s _ hk
    simp at hk
  | cons e tr ih =>
    intro n k s hv hk
    cases e with
    | write s' =>
      have hv' : s' = n % 2 ∧ producerValid n tr = true := by
        simpa [producerValid, Bool.and_eq_true, beq_iff_eq] using hv
      cases k with
      | zero =>
        simp at hk
        simp [handoffCount]
        omega
      | succ k' =>
        have := ih n k' s hv'.2 (by simpa using hk)
        simpa [handoffCount] using this
    | handoff s' =>
      have hv' : s' = n % 2 ∧ producerValid (n + 1) tr = true := by
        simpa [producerValid, Bool.and_eq_true, beq_iff_eq] using hv
      cases k with
      | zero => simp at hk
      | succ k' =>
        have := ih (n + 1) k' s hv'.2 (by simpa using hk)
        rw [List.take_succ_cons]
        rw [show handoffCount (Ev.handoff s' :: tr.take k') =
          handoffCount (tr.take k') + 1 from rfl]
        omega

/-- C2: in every valid producer trace (any interleaving with the pacer,
which never writes), a page slot handed off over the capacity-zero
rendezvous is never written again before a handoff of the other slot
has completed — i.e. not until the pacer consumed it (the rendezvous
itself) and the round-robin cycled back; and every write goes to slot
`handoffs-so-far % 2`, so the producer is never more than one page
ahead of the consumer. -/
theorem double_buffer_safety (tr : List Ev)
    (h : producerValid 0 tr = true) :
    (∀ j k s : Nat, tr[j]? = some (Ev.handoff s) →
      tr[k]? = some (Ev.write s) → j < k →
      ∃ m : Nat, j < m ∧ m < k ∧
        tr[m]? = some (Ev.handoff ((s + 1) % 2))) ∧
    (∀ k s : Nat, tr[k]? = some (Ev.write s) →
      s = handoffCount (tr.take k) % 2) := by
  constructor
  · intro j k s hj hk hjk
    exact handoff_no_early_reuse tr 0 j k s h hj hk hjk
  · intro k s hk
    have := producer_write_current_slot tr 0 k s h hk
    simpa using this

theorem double_buffer_safety_witness :
    (∃ m : Nat, 1 < m ∧ m < 4 ∧
      [Ev.write 0, Ev.handoff 0, Ev.write 1, Ev.handoff 1,
        Ev.write 0][m]? = some (Ev.handoff 1)) ∧
    (0 : Nat) = handoffCount ([Ev.write 0, Ev.handoff 0, Ev.write 1,
      Ev.handoff 1, Ev.write 0].take 4) % 2 := by
  have h := double_buffer_safety
    [Ev.write 0, Ev.handoff 0, Ev.write 1, Ev.handoff 1, Ev.write 0]
    (by decide)
  exact ⟨h.1 1 4 0 (by decide) (by decide) (by decide),
    h.2 4 0 (by decide)⟩

end XCapture
